import Mathlib

/-!
# Verification of the Chinese-reader segmentation engine

A shallow embedding of `process_text` (and its helper `is_chinese_char`)
from `generate_article.py`, together with theorems settling the spec's
claims about segmentation: coverage, longest-match with known-table tie
preference, passthrough of non-Chinese characters, the unknown fallback,
determinism, termination bounds, and inertness of over-long keys.

Texts are modelled as `List Char`; a Python dict mapping Chinese strings
to `{pinyin, english}` rows is modelled as a partial function
`List Char → Option VocabInfo` (`chunk in vocab` becomes
`(vocab chunk).isSome`, and `vocab[chunk]` the value under `some`).
The global `unknown_chars` set mutated by the loop is returned as a
second component, accumulated in encounter order.  Advancing the cursor
by `best_length` over `c :: rest` is phrased as dropping
`best_length - 1` characters of `rest`; the two agree because every
match has length at least 1, and this phrasing makes progress of the
loop structural.
-/

namespace ChineseReader

/-- A vocabulary row: `{'pinyin': ..., 'english': ...}`. -/
structure VocabInfo where
  pinyin : String
  english : String
  deriving DecidableEq, Repr

/-- A vocabulary table (Python dict from Chinese string to row). -/
abbrev Vocab := List Char → Option VocabInfo

/-- One output tuple `(text, is_known, pinyin, english)` appended to `result`. -/
structure Span where
  text : List Char
  isKnown : Bool
  pinyin : String
  english : String
  deriving DecidableEq, Repr

/-- Python `is_chinese_char`: code point in U+4E00..U+9FFF. -/
def is_chinese_char (c : Char) : Bool :=
  '一' ≤ c && c ≤ '鿿'

/-- One iteration of the inner `for length in [4, 3, 2, 1]` loop of
`process_text`, updating the running `(best_match, best_length, best_is_known)`
state: the probe is skipped when `i + length` exceeds the text length
(here: `length` exceeds the length of the remaining suffix), `known_vocab`
is consulted before `extra_vocab`, and either hit is kept only when the
probed length beats `best_length`. -/
def tryLength (rest : List Char) (known_vocab extra_vocab : Vocab)
    (st : Option (List Char) × Nat × Bool) (length : Nat) :
    Option (List Char) × Nat × Bool :=
  if length ≤ rest.length then
    if (known_vocab (rest.take length)).isSome && decide (st.2.1 < length) then
      (some (rest.take length), length, true)
    else if (extra_vocab (rest.take length)).isSome && decide (st.2.1 < length) then
      (some (rest.take length), length, false)
    else st
  else st

/-- The whole `for length in [4, 3, 2, 1]` loop: starting from
`best_match = None`, `best_length = 0`, `best_is_known = False`, fold the
loop body over the candidate lengths. -/
def findBest (rest : List Char) (known_vocab extra_vocab : Vocab) :
    Option (List Char) × Nat × Bool :=
  List.foldl (tryLength rest known_vocab extra_vocab) (none, 0, false) [4, 3, 2, 1]

/-- Length `l` yields no candidate at the current position: either the probe
would run past the end of the text, or the probed prefix is a key of
neither table. -/
def noMatchAt (rest : List Char) (k e : Vocab) (l : Nat) : Prop :=
  l ≤ rest.length → k (rest.take l) = none ∧ e (rest.take l) = none

/-- Invariant of the candidate loop once every length in `(lo, 4]` has been
processed: either no processed length matched and the state is still the
initial one, or the state holds the longest matching processed length,
its source table records the known-first tie policy, and every longer
processed length had no match. -/
def BestState (rest : List Char) (k e : Vocab) (lo : Nat)
    (st : Option (List Char) × Nat × Bool) : Prop :=
  (st = (none, 0, false) ∧ ∀ l, lo < l → l ≤ 4 → noMatchAt rest k e l) ∨
  (∃ l b, st = (some (rest.take l), l, b) ∧ lo < l ∧ l ≤ 4 ∧ l ≤ rest.length ∧
    (b = true → (k (rest.take l)).isSome = true) ∧
    (b = false → (e (rest.take l)).isSome = true ∧ k (rest.take l) = none) ∧
    ∀ lp, l < lp → lp ≤ 4 → noMatchAt rest k e lp)

/-- Python `process_text(text, known_vocab, extra_vocab)`: the `while i < len(text)`
loop, phrased on the remaining suffix of the text.  Returns the `result`
list of spans together with the characters added to `unknown_chars`
during the run (the run starts from a fresh accumulator). -/
def process_text (text : List Char) (known_vocab extra_vocab : Vocab) :
    List Span × List Char :=
  match text with
  | [] => ([], [])
  | c :: rest =>
    if is_chinese_char c = false then
      let r := process_text rest known_vocab extra_vocab
      (⟨[c], true, "", ""⟩ :: r.1, r.2)
    else
      match findBest (c :: rest) known_vocab extra_vocab with
      | (some best_match, best_length, best_is_known) =>
        let info := (if best_is_known then known_vocab best_match
                     else extra_vocab best_match).getD ⟨"", ""⟩
        let r := process_text (rest.drop (best_length - 1)) known_vocab extra_vocab
        (⟨best_match, best_is_known, info.pinyin, info.english⟩ :: r.1, r.2)
      | (none, _, _) =>
        let r := process_text rest known_vocab extra_vocab
        (⟨[c], false, "?", "?"⟩ :: r.1, c :: r.2)
  termination_by text.length
  decreasing_by
  · simp
  · simp only [List.length_drop, List.length_cons]
    omega
  · simp

/-- Removing every key of length greater than 4 from a table. -/
def dropLongKeys (v : Vocab) : Vocab :=
  fun s => if s.length ≤ 4 then v s else none

/-- Every key of the table consists of Chinese characters only. -/
def chineseOnlyKeys (v : Vocab) : Prop :=
  ∀ s, (v s).isSome = true → ∀ c ∈ s, is_chinese_char c = true

/-- The empty vocabulary table. -/
def emptyVocab : Vocab := fun _ => none

/-- The `known` table of the longest-match example: the two single characters
of 里面, each with its own entry. -/
def knownLM : Vocab := fun s =>
  if s = ['里'] then some ⟨"lǐ", "in"⟩
  else if s = ['面'] then some ⟨"miàn", "face"⟩
  else none

/-- The `extra` table of the longest-match example: the two-character word 里面. -/
def extraLM : Vocab := fun s =>
  if s = ['里', '面'] then some ⟨"lǐ miàn", "inside"⟩ else none

/-- The `known` table of the tie example: the word 里面. -/
def knownTie : Vocab := fun s =>
  if s = ['里', '面'] then some ⟨"lǐ miàn", "inside"⟩ else none

/-- The `extra` table of the tie example: the same key 里面 with a different row. -/
def extraTie : Vocab := fun s =>
  if s = ['里', '面'] then some ⟨"other", "other"⟩ else none

/-- The `known` table of the mixed-script example: the word 你好. -/
def knownNihao : Vocab := fun s =>
  if s = ['你', '好'] then some ⟨"nǐ hǎo", "hello"⟩ else none

/-- A table whose single key mixes a Chinese and a Latin character. -/
def mixedKeyVocab : Vocab := fun s =>
  if s = ['你', 'a'] then some ⟨"nǐ a", "mixed"⟩ else none

/-- One loop iteration at the next pending length preserves the invariant. -/
theorem tryLength_step (rest : List Char) (k e : Vocab) (lo : Nat)
    (st : Option (List Char) × Nat × Bool)
    (h : BestState rest k e lo st) (h1 : 1 ≤ lo) (h4 : lo ≤ 4) :
    BestState rest k e (lo - 1) (tryLength rest k e st lo) := by
  rcases h with ⟨hst, hno⟩ | ⟨l, b, hst, hlo, hl4, hlen, hkn, hex, hmax⟩
  · subst hst
    unfold tryLength
    by_cases hL : lo ≤ rest.length
    · rw [if_pos hL]
      by_cases hK : (k (rest.take lo)).isSome = true
      · rw [if_pos (by simp only [hK, Bool.true_and, decide_eq_true_eq]; omega)]
        refine Or.inr ⟨lo, true, rfl, by omega, h4, hL, fun _ => hK, by simp, ?_⟩
        intro lp hlp hlp4
        exact hno lp (by omega) hlp4
      · rw [if_neg (by simp [hK])]
        by_cases hE : (e (rest.take lo)).isSome = true
        · rw [if_pos (by simp only [hE, Bool.true_and, decide_eq_true_eq]; omega)]
          refine Or.inr ⟨lo, false, rfl, by omega, h4, hL,
            by simp, fun _ => ⟨hE, Option.not_isSome_iff_eq_none.mp hK⟩, ?_⟩
          intro lp hlp hlp4
          exact hno lp (by omega) hlp4
        · rw [if_neg (by simp [hE])]
          refine Or.inl ⟨rfl, ?_⟩
          intro l hl hl4
          rcases Nat.lt_or_ge (lo - 1) (l - 1) with hlt | hge
          · exact hno l (by omega) hl4
          · have hleq : l = lo := by omega
            subst hleq
            exact fun _ => ⟨Option.not_isSome_iff_eq_none.mp hK,
              Option.not_isSome_iff_eq_none.mp hE⟩
    · rw [if_neg hL]
      refine Or.inl ⟨rfl, ?_⟩
      intro l hl hl4
      rcases Nat.lt_or_ge (lo - 1) (l - 1) with hlt | hge
      · exact hno l (by omega) hl4
      · have hleq : l = lo := by omega
        subst hleq
        exact fun hll => absurd hll hL
  · subst hst
    unfold tryLength
    dsimp only
    have hni : ∀ v : Bool, (v && decide (l < lo)) ≠ true := by
      intro v hcon
      rw [Bool.and_eq_true, decide_eq_true_eq] at hcon
      exact absurd hcon.2 (by omega)
    by_cases hL : lo ≤ rest.length
    · rw [if_pos hL, if_neg (hni _), if_neg (hni _)]
      exact Or.inr ⟨l, b, rfl, by omega, hl4, hlen, hkn, hex, hmax⟩
    · rw [if_neg hL]
      exact Or.inr ⟨l, b, rfl, by omega, hl4, hlen, hkn, hex, hmax⟩

/-- Full characterization of the candidate loop: the final state is the
invariant with every length `1..4` processed. -/
theorem findBest_spec (rest : List Char) (k e : Vocab) :
    BestState rest k e 0 (findBest rest k e) := by
  have h4 : BestState rest k e 4 (none, 0, false) :=
    Or.inl ⟨rfl, fun l hl hl4 => absurd hl4 (by omega)⟩
  have h3 := tryLength_step rest k e 4 _ h4 (by omega) (by omega)
  have h2 := tryLength_step rest k e 3 _ h3 (by omega) (by omega)
  have h1 := tryLength_step rest k e 2 _ h2 (by omega) (by omega)
  have h0 := tryLength_step rest k e 1 _ h1 (by omega) (by omega)
  unfold findBest
  simpa only [List.foldl] using h0

/-- Whenever the candidate loop ends with a match, the match is the probed
prefix of the remaining text, its length is one of the probed lengths
`4, 3, 2, 1`, and the probe never looked past the end of the text. -/
theorem findBest_shape (rest : List Char) (k e : Vocab)
    (chunk : List Char) (len : Nat) (b : Bool)
    (h : findBest rest k e = (some chunk, len, b)) :
    chunk = rest.take len ∧ 1 ≤ len ∧ len ≤ rest.length ∧ len ≤ 4 := by
  rcases findBest_spec rest k e with ⟨hst, _⟩ | ⟨l, b2, hst, hlo, hl4, hlen, _, _, _⟩
  · rw [hst] at h
    exact absurd h (by simp)
  · rw [hst] at h
    obtain ⟨h1, h2, h3⟩ : rest.take l = chunk ∧ l = len ∧ b2 = b := by simpa using h
    subst h2
    exact ⟨h1.symm, by omega, by omega, by omega⟩

/-- The empty text produces no spans and no unknown characters. -/
theorem process_text_nil (k e : Vocab) : process_text [] k e = ([], []) := by
  rw [process_text.eq_def]

/-- Unfolding the loop at a non-Chinese character: a passthrough span. -/
theorem process_text_cons_pass (c : Char) (rest : List Char) (k e : Vocab)
    (hc : is_chinese_char c = false) :
    process_text (c :: rest) k e =
      (⟨[c], true, "", ""⟩ :: (process_text rest k e).1, (process_text rest k e).2) := by
  rw [process_text.eq_def]
  simp [hc]

/-- Unfolding the loop at a Chinese character with a match: the matched
span, with the row looked up in the winning table, then the rest of the
run on the text after the match. -/
theorem process_text_cons_match (c : Char) (rest : List Char) (k e : Vocab)
    (m : List Char) (len : Nat) (b : Bool)
    (hc : is_chinese_char c = true)
    (hfb : findBest (c :: rest) k e = (some m, len, b)) :
    process_text (c :: rest) k e =
      (⟨m, b, ((if b then k m else e m).getD ⟨"", ""⟩).pinyin,
         ((if b then k m else e m).getD ⟨"", ""⟩).english⟩ ::
           (process_text ((c :: rest).drop len) k e).1,
       (process_text ((c :: rest).drop len) k e).2) := by
  obtain ⟨_, hpos, _, _⟩ := findBest_shape _ _ _ _ _ _ hfb
  have hdrop : (c :: rest).drop len = rest.drop (len - 1) := by
    obtain ⟨len, rfl⟩ := Nat.exists_eq_add_of_le hpos
    simp [Nat.add_comm]
  rw [hdrop, process_text.eq_def]
  simp only [hc, Bool.true_eq_false, if_false]
  split
  · rename_i bm bl bk heq
    rw [hfb] at heq
    obtain ⟨e1, e2, e3⟩ : m = bm ∧ len = bl ∧ b = bk := by simpa using heq
    subst e1; subst e2; subst e3
    rfl
  · rename_i n2 b2 heq
    rw [hfb] at heq
    simp at heq

/-- Unfolding the loop at a Chinese character with no match at any length:
the `?`/`?` fallback span, and the character recorded as unknown. -/
theorem process_text_cons_nomatch (c : Char) (rest : List Char) (k e : Vocab)
    (n : Nat) (bb : Bool)
    (hc : is_chinese_char c = true)
    (hfb : findBest (c :: rest) k e = (none, n, bb)) :
    process_text (c :: rest) k e =
      (⟨[c], false, "?", "?"⟩ :: (process_text rest k e).1,
       c :: (process_text rest k e).2) := by
  rw [process_text.eq_def]
  simp only [hc, Bool.true_eq_false, if_false]
  split
  · rename_i bm bl bk heq
    rw [hfb] at heq
    simp at heq
  · rfl

end ChineseReader

namespace ChineseReader

/-- Concatenating the emitted span texts reconstructs the input. -/
theorem process_text_flatten (text : List Char) (k e : Vocab) :
    ((process_text text k e).1.map Span.text).flatten = text := by
  induction text, k, e using process_text.induct with
  | case1 k e => simp [process_text_nil]
  | case2 k e c rest hc ih =>
    rw [process_text_cons_pass c rest k e hc]
    simpa using ih
  | case3 k e c rest hc m len b hfb ih =>
    have hc2 : is_chinese_char c = true := by simpa using hc
    obtain ⟨hm, hpos, hlen, h4⟩ := findBest_shape _ _ _ _ _ _ hfb
    have hdrop : rest.drop (len - 1) = (c :: rest).drop len := by
      obtain ⟨len, rfl⟩ := Nat.exists_eq_add_of_le hpos
      simp [Nat.add_comm]
    rw [process_text_cons_match c rest k e m len b hc2 hfb]
    rw [hdrop] at ih
    simp only [List.map_cons, List.flatten_cons, ih, hm]
    exact List.take_append_drop len (c :: rest)
  | case4 k e c rest hc n bb hfb ih =>
    have hc2 : is_chinese_char c = true := by simpa using hc
    rw [process_text_cons_nomatch c rest k e n bb hc2 hfb]
    simpa using ih

/-- Every emitted span is nonempty. -/
theorem process_text_span_nonempty (text : List Char) (k e : Vocab) :
    ∀ s ∈ (process_text text k e).1, 1 ≤ s.text.length := by
  induction text, k, e using process_text.induct with
  | case1 k e => simp [process_text_nil]
  | case2 k e c rest hc ih =>
    rw [process_text_cons_pass c rest k e hc]
    intro s hs
    rcases List.mem_cons.mp hs with rfl | hs2
    · simp
    · exact ih s hs2
  | case3 k e c rest hc m len b hfb ih =>
    have hc2 : is_chinese_char c = true := by simpa using hc
    obtain ⟨hm, hpos, hlen, h4⟩ := findBest_shape _ _ _ _ _ _ hfb
    have hdrop : rest.drop (len - 1) = (c :: rest).drop len := by
      obtain ⟨len, rfl⟩ := Nat.exists_eq_add_of_le hpos
      simp [Nat.add_comm]
    rw [process_text_cons_match c rest k e m len b hc2 hfb]
    intro s hs
    rcases List.mem_cons.mp hs with rfl | hs2
    · simp only [hm, List.length_take]
      omega
    · rw [hdrop] at ih
      exact ih s hs2
  | case4 k e c rest hc n bb hfb ih =>
    have hc2 : is_chinese_char c = true := by simpa using hc
    rw [process_text_cons_nomatch c rest k e n bb hc2 hfb]
    intro s hs
    rcases List.mem_cons.mp hs with rfl | hs2
    · simp
    · exact ih s hs2

end ChineseReader

namespace ChineseReader

/-- The emitted span lengths sum to the input length. -/
theorem process_text_sum (text : List Char) (k e : Vocab) :
    ((process_text text k e).1.map (fun s => s.text.length)).sum = text.length := by
  have h := congrArg List.length (process_text_flatten text k e)
  rw [List.length_flatten, List.map_map] at h
  simpa [Function.comp] using h

/-- A list whose image under `f` is pointwise at least 1 is no longer than
the sum of that image. -/
theorem length_le_sum_map (l : List Span) (f : Span → Nat)
    (h : ∀ s ∈ l, 1 ≤ f s) : l.length ≤ (l.map f).sum := by
  induction l with
  | nil => simp
  | cons a t ih =>
    have ha := h a (by simp)
    have ht := ih (fun s hs => h s (by simp [hs]))
    simp only [List.length_cons, List.map_cons, List.sum_cons]
    omega

/-- The Boolean `is_chinese_char` decides membership of the code point in
U+4E00..U+9FFF. -/
theorem is_chinese_char_iff (c : Char) :
    is_chinese_char c = true ↔ 0x4e00 ≤ c.toNat ∧ c.toNat ≤ 0x9fff := by
  unfold is_chinese_char
  simp only [Bool.and_eq_true, decide_eq_true_eq]
  exact ⟨fun h => ⟨h.1, h.2⟩, fun h => ⟨h.1, h.2⟩⟩

/-- C1: for every input text and every pair of tables, concatenating the
text of the spans emitted by `process_text`, in order, reconstructs the
input exactly, and the span lengths sum to the input length. -/
theorem claim_C1_coverage (text : List Char) (k e : Vocab) :
    ((process_text text k e).1.map Span.text).flatten = text ∧
    ((process_text text k e).1.map (fun s => s.text.length)).sum = text.length :=
  ⟨process_text_flatten text k e, process_text_sum text k e⟩

/-- C9: the loop always terminates (witnessed by `process_text` being a
total function) emitting at most one span per consumed character, so the
number of emitted spans is at most the number of input characters. -/
theorem claim_C9_termination (text : List Char) (k e : Vocab) :
    (process_text text k e).1.length ≤ text.length := by
  have hs := process_text_sum text k e
  have hn := process_text_span_nonempty text k e
  have := length_le_sum_map (process_text text k e).1 (fun s => s.text.length) hn
  omega

/-- C6: every character whose code point lies outside U+4E00..U+9FFF is
emitted as its own single-character span, text unchanged, `isKnown = true`,
empty pronunciation and gloss, and the loop advances by one character. -/
theorem claim_C6_passthrough (c : Char) (rest : List Char) (k e : Vocab)
    (hc : ¬ (0x4e00 ≤ c.toNat ∧ c.toNat ≤ 0x9fff)) :
    process_text (c :: rest) k e =
      (⟨[c], true, "", ""⟩ :: (process_text rest k e).1,
       (process_text rest k e).2) := by
  apply process_text_cons_pass
  cases h : is_chinese_char c
  · rfl
  · exact absurd ((is_chinese_char_iff c).mp h) hc

/-- Witness for C6 at the concrete input `"ab"` with empty tables. -/
theorem claim_C6_passthrough_witness :
    process_text ['a', 'b'] emptyVocab emptyVocab =
      (⟨['a'], true, "", ""⟩ :: (process_text ['b'] emptyVocab emptyVocab).1,
       (process_text ['b'] emptyVocab emptyVocab).2) :=
  claim_C6_passthrough 'a' ['b'] emptyVocab emptyVocab (by decide)

/-- C8: segmentation is deterministic — two runs on equal inputs, each
from a fresh unknown-character accumulator, give equal span sequences and
equal unknown-character lists. -/
theorem claim_C8_deterministic (t1 t2 : List Char) (k1 k2 e1 e2 : Vocab)
    (ht : t1 = t2) (hk : k1 = k2) (he : e1 = e2) :
    (process_text t1 k1 e1).1 = (process_text t2 k2 e2).1 ∧
    (process_text t1 k1 e1).2 = (process_text t2 k2 e2).2 := by
  subst ht
  subst hk
  subst he
  exact ⟨rfl, rfl⟩

/-- Witness for C8 at a concrete repeated run. -/
theorem claim_C8_deterministic_witness :
    (process_text ['里', '面'] knownLM extraLM).1 =
      (process_text ['里', '面'] knownLM extraLM).1 ∧
    (process_text ['里', '面'] knownLM extraLM).2 =
      (process_text ['里', '面'] knownLM extraLM).2 :=
  claim_C8_deterministic _ _ _ _ _ _ rfl rfl rfl

/-- C7: at a Chinese character at which no substring of length 4, 3, 2 or 1
is a key of either table, the loop emits a single-character span with
`isKnown = false` and `?`/`?` placeholders, records the character among the
unknown characters, and advances by one; `process_text` is total, so no
input raises. -/
theorem claim_C7_unknown_fallback (c : Char) (rest : List Char) (k e : Vocab)
    (hc : is_chinese_char c = true)
    (hno : ∀ l, 1 ≤ l → l ≤ 4 → noMatchAt (c :: rest) k e l) :
    process_text (c :: rest) k e =
      (⟨[c], false, "?", "?"⟩ :: (process_text rest k e).1,
       c :: (process_text rest k e).2) ∧
    c ∈ (process_text (c :: rest) k e).2 := by
  have hfb : findBest (c :: rest) k e = (none, 0, false) := by
    rcases findBest_spec (c :: rest) k e with ⟨hst, _⟩ |
      ⟨l, b, hst, hlo, hl4, hlen, hkn, hex, _⟩
    · exact hst
    · exfalso
      cases b with
      | false =>
        have h2 := (hex rfl).1
        rw [(hno l (by omega) hl4 hlen).2] at h2
        simp at h2
      | true =>
        have h2 := hkn rfl
        rw [(hno l (by omega) hl4 hlen).1] at h2
        simp at h2
  have heq := process_text_cons_nomatch c rest k e 0 false hc hfb
  refine ⟨heq, ?_⟩
  rw [heq]
  simp

/-- Witness for C7: the character 猫 with both tables empty. -/
theorem claim_C7_unknown_fallback_witness :
    (process_text ['猫'] emptyVocab emptyVocab =
      (⟨['猫'], false, "?", "?"⟩ :: (process_text [] emptyVocab emptyVocab).1,
       '猫' :: (process_text [] emptyVocab emptyVocab).2) ∧
    '猫' ∈ (process_text ['猫'] emptyVocab emptyVocab).2) :=
  claim_C7_unknown_fallback '猫' [] emptyVocab emptyVocab (by decide)
    (fun _ _ _ _ => ⟨rfl, rfl⟩)

end ChineseReader

namespace ChineseReader

/-- A match returned by the candidate loop is a key of one of the tables. -/
theorem findBest_some_isSome (rest : List Char) (k e : Vocab)
    (chunk : List Char) (len : Nat) (b : Bool)
    (h : findBest rest k e = (some chunk, len, b)) :
    (k chunk).isSome = true ∨ (e chunk).isSome = true := by
  rcases findBest_spec rest k e with ⟨hst, _⟩ | ⟨l, b2, hst, _, _, _, hkn, hex, _⟩
  · rw [hst] at h
    exact absurd h (by simp)
  · rw [hst] at h
    obtain ⟨h1, h2, h3⟩ : rest.take l = chunk ∧ l = len ∧ b2 = b := by simpa using h
    subst h1
    cases b2 with
    | true => exact Or.inl (hkn rfl)
    | false => exact Or.inr (hex rfl).1

/-- C2: at a Chinese character the candidate search probes lengths 4, 3, 2, 1
jointly in both tables and selects the match of greatest length regardless of
which table holds it; concretely, with 里 and 面 known and 里面 in `extra`,
segmenting 里面 yields exactly one span 里面 from `extra` with
`isKnown = false`, not two single-character known spans. -/
theorem claim_C2_longest_match (c : Char) (rest : List Char) (k e : Vocab)
    (chunk : List Char) (len : Nat) (b : Bool)
    (hc : is_chinese_char c = true)
    (hfb : findBest (c :: rest) k e = (some chunk, len, b)) :
    (chunk = (c :: rest).take len ∧ 1 ≤ len ∧ len ≤ 4 ∧ len ≤ (c :: rest).length ∧
      (b = true → (k chunk).isSome = true) ∧
      (b = false → (e chunk).isSome = true) ∧
      (∀ lp, len < lp → lp ≤ 4 → lp ≤ (c :: rest).length →
        k ((c :: rest).take lp) = none ∧ e ((c :: rest).take lp) = none) ∧
      (process_text (c :: rest) k e).1 =
        ⟨chunk, b, ((if b then k chunk else e chunk).getD ⟨"", ""⟩).pinyin,
          ((if b then k chunk else e chunk).getD ⟨"", ""⟩).english⟩ ::
          (process_text ((c :: rest).drop len) k e).1) ∧
    process_text ['里', '面'] knownLM extraLM =
      ([⟨['里', '面'], false, "lǐ miàn", "inside"⟩], []) := by
  refine ⟨?_, by simp [process_text, findBest, tryLength, is_chinese_char, knownLM, extraLM]⟩
  rcases findBest_spec (c :: rest) k e with ⟨hst, _⟩ |
    ⟨l, b2, hst, hlo, hl4, hlen, hkn, hex, hmax⟩
  · rw [hst] at hfb
    exact absurd hfb (by simp)
  · rw [hst] at hfb
    obtain ⟨h1, h2, h3⟩ : (c :: rest).take l = chunk ∧ l = len ∧ b2 = b := by simpa using hfb
    subst h2
    subst h3
    subst h1
    refine ⟨rfl, by omega, by omega, by omega, hkn, fun hb => (hex hb).1,
      fun lp hlp hlp4 hlplen => hmax lp hlp hlp4 hlplen, ?_⟩
    rw [process_text_cons_match c rest k e _ l b2 hc hst]

/-- Witness for C2: the 里/面/里面 example itself. -/
theorem claim_C2_longest_match_witness :
    process_text ['里', '面'] knownLM extraLM =
      ([⟨['里', '面'], false, "lǐ miàn", "inside"⟩], []) :=
  (claim_C2_longest_match '里' ['面'] knownLM extraLM ['里', '面'] 2 false
    (by decide) (by decide)).2

end ChineseReader

namespace ChineseReader

/-- C3: when both tables contain a matching substring of the same greatest
length, `known` wins the tie — the span is marked known and carries the
known row's pronunciation and gloss; concretely, with 里面 in both tables,
segmenting 里面 yields one span sourced from `known`. -/
theorem claim_C3_known_tie (c : Char) (rest : List Char) (k e : Vocab)
    (chunk : List Char) (len : Nat) (b : Bool) (info : VocabInfo)
    (hc : is_chinese_char c = true)
    (hfb : findBest (c :: rest) k e = (some chunk, len, b))
    (hk : k chunk = some info) :
    b = true ∧
    (process_text (c :: rest) k e).1 =
      ⟨chunk, true, info.pinyin, info.english⟩ ::
        (process_text ((c :: rest).drop len) k e).1 ∧
    process_text ['里', '面'] knownTie extraTie =
      ([⟨['里', '面'], true, "lǐ miàn", "inside"⟩], []) := by
  have hb : b = true := by
    cases b with
    | true => rfl
    | false =>
      exfalso
      rcases findBest_spec (c :: rest) k e with ⟨hst, _⟩ |
        ⟨l, b2, hst, _, _, _, _, hex, _⟩
      · rw [hst] at hfb
        exact absurd hfb (by simp)
      · rw [hst] at hfb
        obtain ⟨h1, h2, h3⟩ : (c :: rest).take l = chunk ∧ l = len ∧ b2 = false := by
          simpa using hfb
        have hnone := (hex h3).2
        rw [h1, hk] at hnone
        exact absurd hnone (by simp)
  subst hb
  refine ⟨rfl, ?_,
    by simp [process_text, findBest, tryLength, is_chinese_char, knownTie, extraTie]⟩
  rw [process_text_cons_match c rest k e chunk len true hc hfb]
  simp [hk]

/-- Witness for C3: the contrived-overlap example itself. -/
theorem claim_C3_known_tie_witness :
    process_text ['里', '面'] knownTie extraTie =
      ([⟨['里', '面'], true, "lǐ miàn", "inside"⟩], []) :=
  (claim_C3_known_tie '里' ['面'] knownTie extraTie ['里', '面'] 2 true
    ⟨"lǐ miàn", "inside"⟩ (by decide) (by decide) (by decide)).2.2

/-- C4 fails as stated: quantified over arbitrary tables, a key that mixes
scripts produces one emitted span holding both a Chinese and a non-Chinese
character. -/
theorem claim_C4_counterexample :
    (process_text ['你', 'a'] mixedKeyVocab emptyVocab).1 =
      [⟨['你', 'a'], true, "nǐ a", "mixed"⟩] ∧
    ∃ s ∈ (process_text ['你', 'a'] mixedKeyVocab emptyVocab).1,
      (∃ c1 ∈ s.text, is_chinese_char c1 = true) ∧
      (∃ c2 ∈ s.text, is_chinese_char c2 = false) := by
  have h : process_text ['你', 'a'] mixedKeyVocab emptyVocab =
      ([⟨['你', 'a'], true, "nǐ a", "mixed"⟩], []) := by
    simp [process_text, findBest, tryLength, is_chinese_char, mixedKeyVocab, emptyVocab]
  rw [h]
  exact ⟨rfl, ⟨['你', 'a'], true, "nǐ a", "mixed"⟩, by simp,
    ⟨'你', by simp, by decide⟩, ⟨'a', by simp, by decide⟩⟩

/-- C4 (amended): provided every key of both tables consists of Chinese
characters only, no emitted span contains both a Chinese and a non-Chinese
character — a script boundary always ends the current span. -/
theorem claim_C4_no_mixed_span (text : List Char) (k e : Vocab)
    (hk : chineseOnlyKeys k) (he : chineseOnlyKeys e) :
    ∀ s ∈ (process_text text k e).1,
      (∀ c ∈ s.text, is_chinese_char c = true) ∨
      (∀ c ∈ s.text, is_chinese_char c = false) := by
  revert hk he
  induction text, k, e using process_text.induct with
  | case1 k e =>
    intro hk he
    simp [process_text_nil]
  | case2 k e c rest hc ih =>
    intro hk he
    rw [process_text_cons_pass c rest k e hc]
    intro s hs
    rcases List.mem_cons.mp hs with rfl | hs2
    · right
      intro c2 hc2
      rcases List.mem_singleton.mp hc2 with rfl
      exact hc
    · exact ih hk he s hs2
  | case3 k e c rest hc m len b hfb ih =>
    intro hk he
    have hc2 : is_chinese_char c = true := by simpa using hc
    obtain ⟨hm, hpos, hlen, h4⟩ := findBest_shape _ _ _ _ _ _ hfb
    have hdrop : rest.drop (len - 1) = (c :: rest).drop len := by
      obtain ⟨len, rfl⟩ := Nat.exists_eq_add_of_le hpos
      simp [Nat.add_comm]
    rw [process_text_cons_match c rest k e m len b hc2 hfb]
    intro s hs
    rcases List.mem_cons.mp hs with rfl | hs2
    · left
      intro ch hch
      rcases findBest_some_isSome _ _ _ _ _ _ hfb with hks | hes
      · exact hk m hks ch hch
      · exact he m hes ch hch
    · rw [hdrop] at ih
      exact ih hk he s hs2
  | case4 k e c rest hc n bb hfb ih =>
    intro hk he
    have hc2 : is_chinese_char c = true := by simpa using hc
    rw [process_text_cons_nomatch c rest k e n bb hc2 hfb]
    intro s hs
    rcases List.mem_cons.mp hs with rfl | hs2
    · left
      intro c2 hc2m
      rcases List.mem_singleton.mp hc2m with rfl
      exact hc2
    · exact ih hk he s hs2

/-- Witness for the amended C4: the 你好 span of the mixed-script input
"Hi你好" is single-script. -/
theorem claim_C4_no_mixed_span_witness :
    (∀ c ∈ (Span.mk ['你', '好'] true "nǐ hǎo" "hello").text, is_chinese_char c = true) ∨
    (∀ c ∈ (Span.mk ['你', '好'] true "nǐ hǎo" "hello").text, is_chinese_char c = false) :=
  claim_C4_no_mixed_span ['H', 'i', '你', '好'] knownNihao emptyVocab
    (by
      intro s hs c hc
      unfold knownNihao at hs
      split_ifs at hs with h1
      · subst h1
        fin_cases hc <;> decide
      · simp at hs)
    (by
      intro s hs c hc
      simp [emptyVocab] at hs)
    ⟨['你', '好'], true, "nǐ hǎo", "hello"⟩
    (by simp [process_text, findBest, tryLength, is_chinese_char, knownNihao, emptyVocab])

end ChineseReader

namespace ChineseReader

/-- C5 fails as stated: segmenting "Hi你好" with 你好 known yields three
spans, not the four the spec announces. -/
theorem claim_C5_counterexample :
    (process_text ['H', 'i', '你', '好'] knownNihao emptyVocab).1.length = 3 ∧
    ¬ (process_text ['H', 'i', '你', '好'] knownNihao emptyVocab).1.length = 4 := by
  have h : process_text ['H', 'i', '你', '好'] knownNihao emptyVocab =
      ([⟨['H'], true, "", ""⟩, ⟨['i'], true, "", ""⟩,
        ⟨['你', '好'], true, "nǐ hǎo", "hello"⟩], []) := by
    simp [process_text, findBest, tryLength, is_chinese_char, knownNihao, emptyVocab]
  rw [h]
  exact ⟨rfl, by simp⟩

/-- C5 (amended): segmenting "Hi你好" with 你好 known and `extra` empty
yields three spans — "H" and "i" as passthrough spans, each its own span,
then 你好 as a known span. -/
theorem claim_C5_three_spans :
    process_text ['H', 'i', '你', '好'] knownNihao emptyVocab =
      ([⟨['H'], true, "", ""⟩, ⟨['i'], true, "", ""⟩,
        ⟨['你', '好'], true, "nǐ hǎo", "hello"⟩], []) := by
  simp [process_text, findBest, tryLength, is_chinese_char, knownNihao, emptyVocab]

/-- Probes of the candidate loop only ever look up keys of length at most
4, so removing longer keys does not change one iteration. -/
theorem tryLength_dropLongKeys (rest : List Char) (k e : Vocab)
    (st : Option (List Char) × Nat × Bool) (l : Nat) (h4 : l ≤ 4) :
    tryLength rest (dropLongKeys k) (dropLongKeys e) st l = tryLength rest k e st l := by
  unfold tryLength
  by_cases hL : l ≤ rest.length
  · have hkey : (rest.take l).length ≤ 4 := by
      rw [List.length_take]
      omega
    rw [if_pos hL, if_pos hL]
    simp only [dropLongKeys, hkey, if_true]
  · rw [if_neg hL, if_neg hL]

/-- Removing keys longer than 4 does not change the candidate loop. -/
theorem findBest_dropLongKeys (rest : List Char) (k e : Vocab) :
    findBest rest (dropLongKeys k) (dropLongKeys e) = findBest rest k e := by
  unfold findBest
  simp only [List.foldl]
  rw [tryLength_dropLongKeys rest k e _ 4 (by omega),
    tryLength_dropLongKeys rest k e _ 3 (by omega),
    tryLength_dropLongKeys rest k e _ 2 (by omega),
    tryLength_dropLongKeys rest k e _ 1 (by omega)]

/-- C10: keys longer than 4 characters are inert — removing every key of
length greater than 4 from both tables changes neither the span sequence
nor the unknown-character list, because candidate matching only probes
substrings of lengths 4, 3, 2, 1. -/
theorem claim_C10_long_keys_inert (text : List Char) (k e : Vocab) :
    process_text text (dropLongKeys k) (dropLongKeys e) = process_text text k e := by
  induction text, k, e using process_text.induct with
  | case1 k e =>
    rw [process_text_nil, process_text_nil]
  | case2 k e c rest hc ih =>
    rw [process_text_cons_pass c rest _ _ hc, process_text_cons_pass c rest k e hc, ih]
  | case3 k e c rest hc m len b hfb ih =>
    have hc2 : is_chinese_char c = true := by simpa using hc
    obtain ⟨hm, hpos, hlen, h4⟩ := findBest_shape _ _ _ _ _ _ hfb
    have hfb2 : findBest (c :: rest) (dropLongKeys k) (dropLongKeys e) = (some m, len, b) := by
      rw [findBest_dropLongKeys]
      exact hfb
    have hdrop : rest.drop (len - 1) = (c :: rest).drop len := by
      obtain ⟨len, rfl⟩ := Nat.exists_eq_add_of_le hpos
      simp [Nat.add_comm]
    rw [process_text_cons_match c rest _ _ m len b hc2 hfb2,
      process_text_cons_match c rest k e m len b hc2 hfb]
    rw [hdrop] at ih
    rw [ih]
    have hmlen : m.length ≤ 4 := by
      rw [hm, List.length_take]
      omega
    simp [dropLongKeys, hmlen]
  | case4 k e c rest hc n bb hfb ih =>
    have hc2 : is_chinese_char c = true := by simpa using hc
    have hfb2 : findBest (c :: rest) (dropLongKeys k) (dropLongKeys e) = (none, n, bb) := by
      rw [findBest_dropLongKeys]
      exact hfb
    rw [process_text_cons_nomatch c rest _ _ n bb hc2 hfb2,
      process_text_cons_nomatch c rest k e n bb hc2 hfb, ih]

end ChineseReader
